import Mathlib

/-! Verification of the PyRate stacking core (`pyrate/core/stack.py`).

Shallow embedding of the pixel-by-pixel linear-rate estimator
(`stack_rate`, `_stack_setup`, `_stack_rate_by_rows`, `_stack_rate_by_pixel`)
and of the distributed merge of `pyrate/nci/run_pyrate_pypar.py`.

Modelling conventions:

* Machine floats are modelled by exact rationals `ℚ`; a float value that may
  be NaN is `Option ℚ` with `none` = NaN.  `_stack_setup` zero-fills the
  observation cube (`np.where(isnan(x.phase_data), 0, x.phase_data)`), so
  after setup observations are plain `ℚ` and `isnan` on them is constantly
  false.
* In exact arithmetic the code's pipeline
  `cholesky → triangular solve → pivoted economy QR → back substitution`
  on the single-column design matrix `A = T⁻¹Bᵀ` computes the weighted
  least-squares solution `v = (B V⁻¹ Bᵀ)⁻¹ (B V⁻¹ y)`; the pivoting
  permutation of a one-column matrix is the identity.  The embedding uses
  that closed form, which keeps every scalar rational.
* Square roots: `scipy.linalg.cholesky` succeeds exactly when every pivot of
  the (rational) outer-product elimination is positive (`posDefPivots`).
  Writing the lower factor as `L·√D` with `L` unit lower triangular and `D`
  the diagonal of pivots (`V = L D Lᵀ`), the whitened residual vector
  `w·r` (with `w` the upper Cholesky factor of `V⁻¹`, so `w = √D'·L'ᵀ` for
  `V⁻¹ = L' D' L'ᵀ`) has `(w·r)ᵢ² = d'ᵢ·((L'ᵀr)ᵢ)²`, a rational number.
  The embedding therefore carries the SQUARES of the whitened residuals
  (`whitenSq`) and of the reported standard error: a `PixelResult.err` of
  `some q` denotes the nonnegative real √q.  Since squaring is strictly
  monotone on nonnegative reals, maxima, argmaxima (with first-occurrence
  tie-break, as `numpy.argmax`) and threshold comparisons transfer exactly;
  the comparison `t < √q` is `ltSqrt t q`, i.e. `t < 0 ∨ t·t < q`.
* A scipy `LinAlgError` (raised, e.g., by `cholesky` on a matrix that is not
  positive definite, or by `solve` on a singular triangular system) is the
  error of an `Except NumErr` value; the Python function has no
  `try/except`, so the embedding simply propagates the error.
-/

namespace PyRate

/-- A square (or rectangular) matrix of exact rationals, row major. -/
abbrev Mat := List (List ℚ)

/-- Dot product of two rational vectors. -/
def dotQ (xs ys : List ℚ) : ℚ := (List.zipWith (· * ·) xs ys).sum

/-- Matrix–vector product. -/
def matVec (A : Mat) (v : List ℚ) : List ℚ := A.map (fun row => dotQ row v)

/-- The minor of `A` obtained by deleting row `i` and column `j`. -/
def minorMat (A : Mat) (i j : ℕ) : Mat := (A.eraseIdx i).map (fun r => r.eraseIdx j)

/-- Determinant by Laplace expansion along the first row. -/
def detQ (A : Mat) : ℚ :=
  match A with
  | [] => 1
  | row :: rest =>
    ((List.range row.length).map
      (fun j => (-1 : ℚ) ^ j * row.getD j 0 * detQ (rest.map (fun r => r.eraseIdx j)))).sum
termination_by A.length
decreasing_by simp

/-- Exact matrix inverse via the adjugate, `none` when the matrix is singular
(`scipy.linalg.inv` raises `LinAlgError` there). -/
def matInv (A : Mat) : Option Mat :=
  let d := detQ A
  if d = 0 then none
  else some ((List.range A.length).map (fun i =>
    (List.range A.length).map (fun j =>
      (-1 : ℚ) ^ (i + j) * detQ (minorMat A j i) / d)))

/-- One step of symmetric Gaussian elimination: the Schur complement of the
leading entry `a` (first row `a :: r0`, remaining rows `rest`). -/
def schurComp (a : ℚ) (r0 : List ℚ) (rest : Mat) : Mat :=
  rest.map (fun row => List.zipWith (fun x y => x - row.headD 0 * y / a) row.tail r0)

/-- Success condition of `scipy.linalg.cholesky`: on a symmetric matrix it
succeeds exactly when every
pivot of the outer-product elimination is positive. -/
def posDefPivots (A : Mat) : Bool :=
  match A with
  | [] => true
  | [] :: _ => true
  | (a :: r0) :: rest => decide (0 < a) && posDefPivots (schurComp a r0 rest)
termination_by A.length
decreasing_by simp [schurComp]

/-- Squares of the components of `w · x`, where `w` is the upper Cholesky
factor of `A` (the code computes `w = cholesky(inv(vcm_temp))` and takes
`abs(w · r)`): writing `A = L D Lᵀ` with `L` unit lower triangular, the
`i`-th square is `dᵢ · ((Lᵀx)ᵢ)²`, computed recursively via Schur
complements. -/
def whitenSq (A : Mat) (x : List ℚ) : List ℚ :=
  match A, x with
  | (a :: r0) :: rest, t :: ts =>
    let lcol := rest.map (fun row => row.headD 0 / a)
    let s := t + dotQ lcol ts
    a * s ^ 2 :: whitenSq (schurComp a r0 rest) ts
  | _, _ => []
termination_by A.length
decreasing_by simp [schurComp]

@[simp] theorem whitenSq_nil_left (x : List ℚ) : whitenSq [] x = [] := by
  rw [whitenSq.eq_def]

@[simp] theorem whitenSq_nil_row (rest : Mat) (x : List ℚ) :
    whitenSq ([] :: rest) x = [] := by
  rw [whitenSq.eq_def]

@[simp] theorem whitenSq_nil_right (A : Mat) : whitenSq A [] = [] := by
  rw [whitenSq.eq_def]
  cases A with
  | nil => rfl
  | cons row rest => cases row <;> rfl

/-- Comparison `t < √q` for `q ≥ 0`, expressed rationally: the float comparisons
`wr.max() > nsig` and `error > maxsig` compare a nonnegative square root
with a threshold. -/
def ltSqrt (t q : ℚ) : Prop := t < 0 ∨ t * t < q

instance (t q : ℚ) : Decidable (ltSqrt t q) := by unfold ltSqrt; infer_instance

/-- Maximum of a rational list (`numpy.max`; 0 for the empty list, which the
code never reaches: `wr.max()` on an empty array raises). -/
def maxQ : List ℚ → ℚ
  | [] => 0
  | [x] => x
  | x :: y :: t => max x (maxQ (y :: t))

/-- First index attaining the maximum (`numpy.argmax` uses the first
occurrence on ties). -/
def argmaxIdx (l : List ℚ) : ℕ := l.findIdx (fun x => decide (maxQ l ≤ x))

theorem maxQ_mem : ∀ (l : List ℚ), l ≠ [] → maxQ l ∈ l
  | [x], _ => by simp [maxQ]
  | x :: y :: t, _ => by
    have ih := maxQ_mem (y :: t) (by simp)
    simp only [maxQ]
    rcases le_total x (maxQ (y :: t)) with h | h
    · rw [max_eq_right h]; exact List.mem_cons_of_mem _ ih
    · rw [max_eq_left h]; exact List.mem_cons_self _ _

theorem le_maxQ : ∀ (l : List ℚ), ∀ x ∈ l, x ≤ maxQ l
  | [x], y, hy => by simp at hy; simp [maxQ, hy]
  | x :: y :: t, z, hz => by
    simp only [maxQ]
    rcases List.mem_cons.1 hz with rfl | hz'
    · exact le_max_left _ _
    · exact le_trans (le_maxQ (y :: t) z hz') (le_max_right _ _)

theorem argmaxIdx_lt_length (l : List ℚ) (h : l ≠ []) : argmaxIdx l < l.length := by
  apply List.findIdx_lt_length_of_exists
  exact ⟨maxQ l, maxQ_mem l h, by simp⟩

theorem argmaxIdx_attains (l : List ℚ) (h : l ≠ []) :
    l.getD (argmaxIdx l) 0 = maxQ l := by
  have hlt := argmaxIdx_lt_length l h
  have h1 := List.findIdx_getElem (w := hlt)
  simp only [decide_eq_true_eq] at h1
  have h2 : l[argmaxIdx l] ≤ maxQ l := le_maxQ l _ (List.getElem_mem _)
  have := le_antisymm h2 h1
  rw [List.getD_eq_getElem l 0 hlt, this]

theorem argmaxIdx_first (l : List ℚ) (k : ℕ) (hk : k < argmaxIdx l) :
    l.getD k 0 < maxQ l := by
  have hlen : argmaxIdx l ≤ l.length := by
    unfold argmaxIdx; exact List.findIdx_le_length _
  have hklen : k < l.length := lt_of_lt_of_le hk hlen
  have h1 := List.not_of_lt_findIdx (p := fun x => decide (maxQ l ≤ x)) hk
  simp only [decide_eq_true_eq] at h1
  rw [List.getD_eq_getElem l 0 hklen]
  exact lt_of_not_le (by simpa using h1)

/-! The per-pixel estimator (`_stack_rate_by_pixel`). -/

/-- Result triple of the per-pixel estimator: `(rate, error, samples)`.
`rate` is `none` for NaN; `err = some q` denotes the nonnegative real √q
(`none` for NaN); `nsamp` is the observation count (stored by the code in a
float32 raster, always an exact small natural number). -/
structure PixelResult where
  rate : Option ℚ
  err : Option ℚ
  nsamp : ℕ
deriving DecidableEq

/-- A Python exception aborting the run: `notPosDef` is the scipy
`LinAlgError` from `cholesky` on a matrix that is not positive definite,
`singular` the `LinAlgError` from `solve`/`inv` on a singular matrix,
`degenerate` the `ValueError` that `wr.max()` raises on an empty active set
(reachable only when `pthresh ≤ 0`), and `indexError` the numpy
`IndexError` raised by the parallel-mode reassembly `res[:, :, 0]` /
`res[:, 0]` (stack.py lines 58, 67) when the collected result list is
empty, so that `np.array(res)` is 1-D. -/
inductive NumErr
  | notPosDef
  | singular
  | degenerate
  | indexError
deriving DecidableEq

/-- Outcome of one execution of the body of the `while` loop of
`_stack_rate_by_pixel`. -/
inductive StepOut
  | fail (e : NumErr)
  | reject (j : ℕ)
  | done (res : PixelResult)
deriving DecidableEq

/-- Line `ifgv = obs[ind, row, col]`: the selected observations, `y` being the
pixel's column of the observation cube. -/
def obsVec (y : ℕ → ℚ) (ind : List ℕ) : List ℚ := ind.map y

/-- Line `B = span[:, ind]`: the (single-row) design matrix. -/
def designRow (span : ℕ → ℚ) (ind : List ℕ) : List ℚ := ind.map span

/-- Line `vcm_temp = vcmt[ind, np.vstack(ind)]`: the VCM submatrix of the
selected observations. -/
def vcmSub (vcmt : ℕ → ℕ → ℚ) (ind : List ℕ) : Mat :=
  ind.map (fun i => ind.map (fun j => vcmt i j))

/-- Line `r = (B * v) - ifgv`: residuals, model minus observations. -/
def residuals (b : List ℚ) (v0 : ℚ) (yv : List ℚ) : List ℚ :=
  List.zipWith (fun bi yi => bi * v0 - yi) b yv

/-- Quantity `err2 = B·inv(vcm_temp)·Bᵗ` (stack.py lines 163–164), the 1×1 weighted
normal matrix; also equal to `AᵗA` for the whitened design column
`A = T⁻¹Bᵗ`. -/
def sWeight (vcm_inv : Mat) (b : List ℚ) : ℚ := dotQ b (matVec vcm_inv b)

/-- Quantity `v[0]` (stack.py lines 145–160): in exact arithmetic the chain
`T = cholesky(vcm_temp, 1)`, `A = solve(T, Bᵗ)`, `b = solve(T, ifgvᵗ)`,
`Q, R, _ = qr(A, mode='economic', pivoting=True)`, `v = solve(R, Qᵗb)`
computes the weighted least-squares estimate
`v = (B·V⁻¹·Bᵗ)⁻¹·(B·V⁻¹·ifgv)`; the pivoting permutation of a one-column
design matrix is the identity. -/
def vEst (vcm_inv : Mat) (b yv : List ℚ) : ℚ :=
  dotQ b (matVec vcm_inv yv) / sWeight vcm_inv b

/-- The squares of the whitened residual magnitudes
`wr = abs(w · rᵗ)` with `w = cholesky(inv(vcm_temp))` and
`r = (B * v) - ifgv` (stack.py lines 167–172). -/
def wrSqOf (vcm_inv : Mat) (b yv : List ℚ) : List ℚ :=
  whitenSq vcm_inv (residuals b (vEst vcm_inv b yv) yv)

/-- One execution of the body of the `while` loop of `_stack_rate_by_pixel`
(stack.py lines 136–181).  `cholesky(vcm_temp, 1)` raising on a
non-positive-definite submatrix is the `posDefPivots` guard;
`solve(R, z)`/`inv(err2)` raising on the singular 1×1 system is the
`sWeight = 0` guard; the reported error `err[0] = √(1/s)` is carried by its
square `1/s`; the convergence test compares `wr.max()` (carried by its
square) with `nsig`. -/
def stackStep (nsig : ℚ) (y span : ℕ → ℚ) (vcmt : ℕ → ℕ → ℚ) (ind : List ℕ) : StepOut :=
  if ind.isEmpty then .fail .degenerate
  else
    let ifgv := obsVec y ind
    let b := designRow span ind
    let vcm_temp := vcmSub vcmt ind
    if posDefPivots vcm_temp then
      match matInv vcm_temp with
      | none => .fail .singular
      | some vcm_inv =>
        if sWeight vcm_inv b = 0 then .fail .singular
        else
          let wrSq := wrSqOf vcm_inv b ifgv
          if ltSqrt nsig (maxQ wrSq) then .reject (argmaxIdx wrSq)
          else .done ⟨some (vEst vcm_inv b ifgv), some (1 / sWeight vcm_inv b), ind.length⟩
    else .fail .notPosDef

theorem whitenSq_length_le (A : Mat) (x : List ℚ) :
    (whitenSq A x).length ≤ x.length := by
  match A, x with
  | (a :: r0) :: rest, t :: ts =>
    have ih := whitenSq_length_le (schurComp a r0 rest) ts
    simp only [whitenSq, List.length_cons]
    omega
  | [], x => simp [whitenSq]
  | [] :: rest, x => simp [whitenSq]
  | (a :: r0) :: rest, [] => simp [whitenSq]
termination_by A.length
decreasing_by simp [schurComp]

theorem wrSqOf_length_le (vcm_inv : Mat) (b yv : List ℚ) :
    (wrSqOf vcm_inv b yv).length ≤ b.length := by
  unfold wrSqOf
  refine le_trans (whitenSq_length_le _ _) ?_
  simp only [residuals, List.length_zipWith]
  exact min_le_left _ _

theorem stackStep_reject_lt {nsig : ℚ} {y span : ℕ → ℚ} {vcmt : ℕ → ℕ → ℚ}
    {ind : List ℕ} {j : ℕ}
    (h : stackStep nsig y span vcmt ind = .reject j) : j < ind.length := by
  unfold stackStep at h
  split at h
  · cases h
  next hemp =>
    have hne : ind ≠ [] := by simpa [List.isEmpty_iff] using hemp
    have hpos : 0 < ind.length := List.length_pos.mpr hne
    dsimp only at h
    split at h
    · split at h
      · cases h
      next vcm_inv hinv =>
        split at h
        · cases h
        · split at h
          · -- the rejecting branch: `j` is the argmax of the whitened residuals
            injection h with hj
            subst hj
            by_cases hw : wrSqOf vcm_inv (designRow span ind) (obsVec y ind) = []
            · rw [hw]; simpa [argmaxIdx] using hpos
            · refine lt_of_lt_of_le (argmaxIdx_lt_length _ hw) ?_
              refine le_trans (wrSqOf_length_le _ _ _) ?_
              simp [designRow]
          · cases h
    · cases h

/-- The `while len(ind) >= pthresh` loop of `_stack_rate_by_pixel`
(stack.py lines 135–183): leaving the loop returns the dummy
`(nan, nan, default_no_samples)`; a rejecting body drops the argmax
observation and iterates; a converged body returns its estimate; a scipy
error propagates (the code has no `try/except`). -/
def stackLoop (nsig : ℚ) (y span : ℕ → ℚ) (vcmt : ℕ → ℕ → ℚ)
    (pthresh default_no_samples : ℕ) (ind : List ℕ) : Except NumErr PixelResult :=
  if ind.length < pthresh then .ok ⟨none, none, default_no_samples⟩
  else
    match h : stackStep nsig y span vcmt ind with
    | .fail e => .error e
    | .done res => .ok res
    | .reject j => stackLoop nsig y span vcmt pthresh default_no_samples (ind.eraseIdx j)
termination_by ind.length
decreasing_by
  have hj := stackStep_reject_lt h
  rw [List.length_eraseIdx]
  simp only [hj, if_true]
  omega

/-- Unfolding `stackLoop` at an exiting state: `len(ind) < pthresh` returns
the dummy `(nan, nan, default_no_samples)` (stack.py lines 182–183). -/
theorem stackLoop_exit {nsig : ℚ} {y span : ℕ → ℚ} {vcmt : ℕ → ℕ → ℚ}
    {pthresh d : ℕ} {ind : List ℕ} (hc : ind.length < pthresh) :
    stackLoop nsig y span vcmt pthresh d ind = .ok ⟨none, none, d⟩ := by
  rw [stackLoop, if_pos hc]

/-- Unfolding `stackLoop` at a body raising a scipy error: the exception
propagates out of the pixel computation. -/
theorem stackLoop_fail {nsig : ℚ} {y span : ℕ → ℚ} {vcmt : ℕ → ℕ → ℚ}
    {pthresh d : ℕ} {ind : List ℕ} {e : NumErr} (hc : ¬ ind.length < pthresh)
    (hs : stackStep nsig y span vcmt ind = .fail e) :
    stackLoop nsig y span vcmt pthresh d ind = .error e := by
  rw [stackLoop, if_neg hc]
  split
  next e' h => rw [hs] at h; cases h; rfl
  next res h => rw [hs] at h; cases h
  next j h => rw [hs] at h; cases h

/-- Unfolding `stackLoop` at a converged body (stack.py lines 179–181). -/
theorem stackLoop_done {nsig : ℚ} {y span : ℕ → ℚ} {vcmt : ℕ → ℕ → ℚ}
    {pthresh d : ℕ} {ind : List ℕ} {res : PixelResult} (hc : ¬ ind.length < pthresh)
    (hs : stackStep nsig y span vcmt ind = .done res) :
    stackLoop nsig y span vcmt pthresh d ind = .ok res := by
  rw [stackLoop, if_neg hc]
  split
  next e' h => rw [hs] at h; cases h
  next res' h => rw [hs] at h; cases h; rfl
  next j h => rw [hs] at h; cases h

/-- Unfolding `stackLoop` at a rejecting body (stack.py lines 176–178):
the argmax observation is dropped and the loop repeats. -/
theorem stackLoop_reject {nsig : ℚ} {y span : ℕ → ℚ} {vcmt : ℕ → ℕ → ℚ}
    {pthresh d : ℕ} {ind : List ℕ} {j : ℕ} (hc : ¬ ind.length < pthresh)
    (hs : stackStep nsig y span vcmt ind = .reject j) :
    stackLoop nsig y span vcmt pthresh d ind =
      stackLoop nsig y span vcmt pthresh d (ind.eraseIdx j) := by
  rw [stackLoop, if_neg hc]
  split
  next e' h => rw [hs] at h; cases h
  next res' h => rw [hs] at h; cases h
  next j' h => rw [hs] at h; cases h; rfl

/-- Loop `stackLoop` instrumented with the number of loop-body executions it may
still perform: `none` means the bound was exceeded. -/
def stackLoopFuel (nsig : ℚ) (y span : ℕ → ℚ) (vcmt : ℕ → ℕ → ℚ)
    (pthresh default_no_samples : ℕ) (fuel : ℕ) (ind : List ℕ) :
    Option (Except NumErr PixelResult) :=
  if ind.length < pthresh then some (.ok ⟨none, none, default_no_samples⟩)
  else
    match fuel with
    | 0 => none
    | f + 1 =>
      match stackStep nsig y span vcmt ind with
      | .fail e => some (.error e)
      | .done res => some (.ok res)
      | .reject j =>
        stackLoopFuel nsig y span vcmt pthresh default_no_samples f (ind.eraseIdx j)

/-- Line `ind = np.nonzero(mst[:, row, col])[0]`: the ascending indices of the
independent observations selected for the pixel. -/
def indexSet (mst : ℕ → ℕ → ℕ → Bool) (nObs row col : ℕ) : List ℕ :=
  (List.range nObs).filter (fun k => mst k row col)

/-- Function `_stack_rate_by_pixel(row, col, mst, nsig, obs, pthresh, span, vcmt)`
(stack.py lines 127–183); `nObs` is the depth of the observation cube. -/
def stack_rate_by_pixel (row col : ℕ) (mst : ℕ → ℕ → ℕ → Bool) (nsig : ℚ)
    (obs : ℕ → ℕ → ℕ → ℚ) (pthresh : ℕ) (span : ℕ → ℚ) (vcmt : ℕ → ℕ → ℚ)
    (nObs : ℕ) : Except NumErr PixelResult :=
  let ind := indexSet mst nObs row col
  stackLoop nsig (fun k => obs k row col) span vcmt pthresh ind.length ind

/-! Setup (`_stack_setup`). -/

/-- Line `np.where(isnan(x.phase_data), 0, x.phase_data)` (stack.py line 102):
the NaN entries of the phase data are replaced by 0. -/
def zeroFill (x : Option ℚ) : ℚ := x.getD 0

/-- Function `isnan` applied to an entry of the ZERO-FILLED observation cube: such an
entry is an exact rational, never NaN. -/
def isnanQ (_ : ℚ) : Bool := false

/-- The dummy mask `mst = ~isnan(obs)` (stack.py line 106), where `obs` is
the zero-filled cube built on line 102. -/
def defaultMst (obs : ℕ → ℕ → ℕ → ℚ) : ℕ → ℕ → ℕ → Bool :=
  fun k r c => ! isnanQ (obs k r c)

/-- The in-place update `mst[isnan(obs)] = 0` (stack.py line 108) applied to
a supplied mask, `obs` being the zero-filled cube of line 102. -/
def mstUpdate (obs : ℕ → ℕ → ℕ → ℚ) (mst : ℕ → ℕ → ℕ → Bool) : ℕ → ℕ → ℕ → Bool :=
  fun k r c => if isnanQ (obs k r c) then false else mst k r c

/-! Raster assembly under the three concurrency modes and final masking
(`stack_rate`, `_stack_rate_by_rows`) -/

abbrev Grid := List (List PixelResult)

/-- Sequences per-pixel outcomes, stopping at the first raised exception
(the pure rendering of a Python loop that may raise). -/
def seqE {α : Type} : List (Except NumErr α) → Except NumErr (List α)
  | [] => .ok []
  | x :: rest =>
    match x with
    | .error e => .error e
    | .ok v =>
      match seqE rest with
      | .error e => .error e
      | .ok vs => .ok (v :: vs)

/-- The serial mode (stack.py lines 70–73): nested row-major loops invoking
`_stack_rate_by_pixel` at every pixel. -/
def gridSerial (rows cols : ℕ) (pix : ℕ → ℕ → Except NumErr PixelResult) :
    Except NumErr Grid :=
  seqE ((List.range rows).map (fun r => seqE ((List.range cols).map (fun c => pix r c))))

/-- Function `_stack_rate_by_rows(row, cols, ...)` (stack.py lines 117–124): one row
of per-pixel results. -/
def stack_rate_by_rows (r cols : ℕ) (pix : ℕ → ℕ → Except NumErr PixelResult) :
    Except NumErr (List PixelResult) :=
  seqE ((List.range cols).map (fun c => pix r c))

/-- The row-parallel mode (stack.py lines 52–60): joblib maps
`_stack_rate_by_rows` over the rows and reassembles `res[:, :, i]` in
submission order.  When there are no rows, `np.array(res)` is a 1-D empty
array and `res[:, :, 0]` (line 58) raises `IndexError`; otherwise `res` is
a `(rows, cols, 3)` float32 array and the slices succeed (also for
`cols = 0`). -/
def gridByRows (rows cols : ℕ) (pix : ℕ → ℕ → Except NumErr PixelResult) :
    Except NumErr Grid :=
  match seqE ((List.range rows).map (fun r => stack_rate_by_rows r cols pix)) with
  | .error e => .error e
  | .ok g => if rows = 0 then .error .indexError else .ok g

/-- Order `itertools.product(range(rows), range(cols))`: row-major pixel order. -/
def productRC (rows cols : ℕ) : List (ℕ × ℕ) :=
  (List.range rows).flatMap (fun r => (List.range cols).map (fun c => (r, c)))

/-- Operation `res[:, i].reshape(rows, cols)`: chop a flat row-major list into rows. -/
def reshape : ℕ → ℕ → List PixelResult → Grid
  | 0, _, _ => []
  | r + 1, cols, l => l.take cols :: reshape r cols (l.drop cols)

/-- The pixel-parallel mode (stack.py lines 61–69): joblib maps
`_stack_rate_by_pixel` over `itertools.product` of the two image dimensions
and the flat result is reshaped.  When the pixel product is empty
(`rows * cols = 0`), `np.array(res)` is a 1-D empty array and `res[:, 0]`
(line 67) raises `IndexError`; otherwise `res` is an `(rows·cols, 3)`
float32 array and the slice-and-reshape succeeds. -/
def gridByPixel (rows cols : ℕ) (pix : ℕ → ℕ → Except NumErr PixelResult) :
    Except NumErr Grid :=
  match seqE ((productRC rows cols).map (fun rc => pix rc.1 rc.2)) with
  | .error e => .error e
  | .ok flat =>
    if rows * cols = 0 then .error .indexError else .ok (reshape rows cols flat)

/-- Condition `mask = ~isnan(error); mask[mask] &= error[mask] > maxsig`
(stack.py lines 77–78), at one pixel: the error is not NaN and exceeds
`maxsig` (the stored square `sq` denotes the error √sq). -/
def errGtMaxsig (maxsig : ℚ) : Option ℚ → Bool
  | none => false
  | some sq => decide (ltSqrt maxsig sq)

/-- Assignment `rate[mask] = nan; error[mask] = nan` (stack.py lines 79–80) at one
pixel; the commented-out line 81 leaves `samples` untouched. -/
def maskEntry (maxsig : ℚ) (res : PixelResult) : PixelResult :=
  if errGtMaxsig maxsig res.err then ⟨none, none, res.nsamp⟩ else res

/-- The final masking step of `stack_rate` over the whole raster. -/
def applyMaxsigMask (maxsig : ℚ) (g : Grid) : Grid :=
  g.map (List.map (maskEntry maxsig))

/-- The configuration parameters read by `_stack_setup`. -/
structure StackParams where
  parallel : ℤ
  nsig : ℚ
  maxsig : ℚ
  pthresh : ℕ

/-- The three output rasters `rate, error, samples`. -/
def splitGrid (g : Grid) :
    List (List (Option ℚ)) × List (List (Option ℚ)) × List (List ℕ) :=
  (g.map (List.map PixelResult.rate), g.map (List.map PixelResult.err),
    g.map (List.map PixelResult.nsamp))

/-- Function `stack_rate(ifgs, params, vcmt, mst)` (stack.py lines 31–83): setup,
per-pixel estimation under the mode selected by `params[PARALLEL]`
(1 = by rows, 2 = by pixels, anything else serial), then maxsig masking.
An uncaught scipy exception aborts the whole call (`Except.error`). -/
def stack_rate (rows cols nObs : ℕ) (phase : ℕ → ℕ → ℕ → Option ℚ)
    (span : ℕ → ℚ) (vcmt : ℕ → ℕ → ℚ) (mstOpt : Option (ℕ → ℕ → ℕ → Bool))
    (p : StackParams) :
    Except NumErr (List (List (Option ℚ)) × List (List (Option ℚ)) × List (List ℕ)) :=
  let obs := fun k r c => zeroFill (phase k r c)
  let mst :=
    match mstOpt with
    | none => defaultMst obs
    | some m => mstUpdate obs m
  let pix := fun r c => stack_rate_by_pixel r c mst p.nsig obs p.pthresh span vcmt nObs
  let g :=
    if p.parallel = 1 then gridByRows rows cols pix
    else if p.parallel = 2 then gridByPixel rows cols pix
    else gridSerial rows cols pix
  g.map (fun grid => splitGrid (applyMaxsigMask p.maxsig grid))

theorem seqE_ok_length {α : Type} :
    ∀ {l : List (Except NumErr α)} {v : List α}, seqE l = .ok v → v.length = l.length
  | [], v, h => by simp [seqE] at h; simp [← h]
  | x :: rest, v, h => by
    match x with
    | .error e => simp [seqE] at h
    | .ok a =>
      simp only [seqE] at h
      match hr : seqE rest with
      | .error e => rw [hr] at h; cases h
      | .ok vs =>
        rw [hr] at h
        cases h
        simp [seqE_ok_length hr]

theorem seqE_append {α : Type} (l₁ l₂ : List (Except NumErr α)) :
    seqE (l₁ ++ l₂) =
      match seqE l₁ with
      | .error e => .error e
      | .ok a =>
        match seqE l₂ with
        | .error e => .error e
        | .ok b => .ok (a ++ b) := by
  induction l₁ with
  | nil =>
    simp only [List.nil_append, seqE]
    match h : seqE l₂ with
    | .error e => rfl
    | .ok b => rfl
  | cons x rest ih =>
    match x with
    | .error e => simp [seqE]
    | .ok a =>
      simp only [List.cons_append, seqE, List.append_eq]
      rw [ih]
      cases h1 : seqE rest with
      | error e => rfl
      | ok vs =>
        cases h2 : seqE l₂ with
        | error e => rfl
        | ok b => rfl

theorem gridByRows_eq_serial (rows cols : ℕ) (pix : ℕ → ℕ → Except NumErr PixelResult)
    (hr : rows ≠ 0) :
    gridByRows rows cols pix = gridSerial rows cols pix := by
  unfold gridByRows gridSerial stack_rate_by_rows
  cases h : seqE ((List.range rows).map fun r =>
      seqE ((List.range cols).map fun c => pix r c)) with
  | error e => rfl
  | ok g => simp [hr]

theorem gridByPixel_flat (rs : List ℕ) (cols : ℕ)
    (pix : ℕ → ℕ → Except NumErr PixelResult) :
    (seqE ((rs.flatMap (fun r => (List.range cols).map (fun c => (r, c)))).map
        (fun rc => pix rc.1 rc.2))).map (reshape rs.length cols) =
      seqE (rs.map (fun r => seqE ((List.range cols).map (fun c => pix r c)))) := by
  induction rs with
  | nil => simp [seqE, reshape, Except.map]
  | cons r rest ih =>
    have hrow : ((fun rc : ℕ × ℕ => pix rc.1 rc.2) ∘ fun c : ℕ => (r, c)) =
        fun c => pix r c := rfl
    simp only [List.flatMap_cons, List.map_append, List.map_map, hrow, seqE_append,
      List.map_cons, List.length_cons]
    cases h1 : seqE ((List.range cols).map fun c => pix r c) with
    | error e => simp [seqE, Except.map]
    | ok v1 =>
      cases h2 : seqE ((rest.flatMap fun r => (List.range cols).map fun c => (r, c)).map
          fun rc => pix rc.1 rc.2) with
      | error e =>
        rw [h2] at ih
        simp only [Except.map] at ih
        simp [seqE, Except.map, ← ih]
      | ok v2 =>
        rw [h2] at ih
        simp only [Except.map] at ih
        have hv1 : v1.length = cols := by rw [seqE_ok_length h1]; simp
        have ht : (v1 ++ v2).take cols = v1 := by
          rw [← hv1]; exact List.take_left v1 v2
        have hd : (v1 ++ v2).drop cols = v2 := by
          rw [← hv1]; exact List.drop_left v1 v2
        simp [seqE, Except.map, reshape, ht, hd, ← ih]

theorem gridByPixel_eq_serial (rows cols : ℕ)
    (pix : ℕ → ℕ → Except NumErr PixelResult) (hr : rows ≠ 0) (hc : cols ≠ 0) :
    gridByPixel rows cols pix = gridSerial rows cols pix := by
  have h := gridByPixel_flat (List.range rows) cols pix
  simp only [List.length_range] at h
  unfold gridByPixel gridSerial productRC
  cases hflat : seqE (((List.range rows).flatMap fun r =>
      (List.range cols).map fun c => (r, c)).map fun rc => pix rc.1 rc.2) with
  | error e =>
    rw [hflat] at h
    simp only [Except.map] at h
    exact h
  | ok flat =>
    rw [hflat] at h
    simp only [Except.map] at h
    rw [← h]
    simp [Nat.mul_ne_zero hr hc]

/-! Distributed merge (`pyrate/nci/run_pyrate_pypar.py`, `mpi_mst_calc`). -/

namespace Mpi

/-- Communication events a rank performs in `mpi_mst_calc` after it has
computed its own tiles. -/
inductive Event
  | barrier
  | send (dst tag : ℕ)
  | recv (src : ℕ)
deriving DecidableEq

/-- Constant `MASTER_PROCESS = 0` (run_pyrate_pypar.py line 19). -/
def MASTER_PROCESS : ℕ := 0

/-- The communication events of `mpi_mst_calc` (run_pyrate_pypar.py lines
103–115) for a given rank: `parallel.barrier()`, after which a non-master
rank performs the single
`parallel.send(result_process, destination=MASTER_PROCESS, tag=MPI_myID)`
while the master performs
`for i in range(1, num_processors): parallel.receive(source=i, ...)`. -/
def events (numProcs rank : ℕ) : List Event :=
  if rank = MASTER_PROCESS then
    .barrier :: (List.range' 1 (numProcs - 1)).map .recv
  else
    [.barrier, .send MASTER_PROCESS rank]

/-- The send events of an event list. -/
def sendsOf (l : List Event) : List Event :=
  l.filter (fun e => match e with | .send _ _ => true | _ => false)

/-- The sources of the receive events of an event list, in order. -/
def recvSources (l : List Event) : List ℕ :=
  l.filterMap (fun e => match e with | .recv s => some s | _ => none)

/-- Accumulation `result = result_process` then
`for i in range(1, num_processors): result += parallel.receive(source=i, ...)`
(run_pyrate_pypar.py lines 110–115): the master's own full-shape array plus
each worker's, accumulated in rank order; numpy `+=` is pointwise addition,
pixel coordinates flattened to `ℕ`. -/
def mergeResult (numProcs : ℕ) (payload : ℕ → ℕ → ℚ) : ℕ → ℚ :=
  fun p =>
    payload MASTER_PROCESS p +
      ((List.range' 1 (numProcs - 1)).map (fun i => payload i p)).sum

/-- Modelled from the spec: the tile machinery (`mst.setup_tiles`,
`parallel.calc_indices`, `mst.mst_multiprocessing_map` and the module
`pyrate.nci.parallel`) is not among the sources.  Per the spec each tile is
assigned to exactly one worker and each worker computes its tiles fully
independently into a full-shape array, so a rank's array holds computed
values on its own tile region and zeros elsewhere: `owner p` is the rank
whose tile region contains pixel `p`, and only that rank's payload may be
nonzero at `p`. -/
def tileExclusive (numProcs : ℕ) (owner : ℕ → ℕ) (payload : ℕ → ℕ → ℚ) : Prop :=
  ∀ i p, i < numProcs → owner p ≠ i → payload i p = 0

theorem recvSources_barrier_map (l : List ℕ) :
    recvSources (.barrier :: l.map .recv) = l := by
  unfold recvSources
  simp only [List.filterMap_cons]
  induction l with
  | nil => rfl
  | cons x xs ih =>
    simp only [List.map_cons, List.filterMap_cons]
    simp only [List.map_cons, List.filterMap_cons] at ih
    exact congrArg (x :: ·) ih

theorem sum_map_eq_single (l : List ℕ) (f : ℕ → ℚ) (j : ℕ)
    (hj : j ∈ l) (hnd : l.Nodup) (hz : ∀ i ∈ l, i ≠ j → f i = 0) :
    (l.map f).sum = f j := by
  induction l with
  | nil => cases hj
  | cons x xs ih =>
    have hnd' := List.nodup_cons.1 hnd
    rcases List.mem_cons.1 hj with rfl | hx
    · have hzs : ∀ q ∈ xs.map f, q = 0 := by
        intro q hq
        rcases List.mem_map.1 hq with ⟨i, hi, rfl⟩
        exact hz i (List.mem_cons_of_mem _ hi) (fun he => hnd'.1 (he ▸ hi))
      simp [List.sum_eq_zero hzs]
    · have hxj : x ≠ j := fun he => hnd'.1 (he ▸ hx)
      rw [List.map_cons, List.sum_cons, hz x (List.mem_cons_self _ _) hxj,
        ih hx hnd'.2 (fun i hi => hz i (List.mem_cons_of_mem _ hi))]
      ring

end Mpi

/-! Claims. -/

/-- Unfolding of `_stack_rate_by_pixel` into the rejection loop started on
the pixel's initial index set. -/
theorem stack_rate_by_pixel_def (row col : ℕ) (mst : ℕ → ℕ → ℕ → Bool) (nsig : ℚ)
    (obs : ℕ → ℕ → ℕ → ℚ) (pthresh : ℕ) (span : ℕ → ℚ) (vcmt : ℕ → ℕ → ℚ) (nObs : ℕ) :
    stack_rate_by_pixel row col mst nsig obs pthresh span vcmt nObs =
      stackLoop nsig (fun k => obs k row col) span vcmt pthresh
        (indexSet mst nObs row col).length (indexSet mst nObs row col) := rfl

/-- C1, counterexample: at a pixel whose (1×1) VCM submatrix is the zero
matrix — not positive definite — the per-pixel estimator does NOT return a
`(NaN, NaN, count)` triple: the Cholesky `LinAlgError` escapes
`_stack_rate_by_pixel` (there is no `try/except`), and the serial
`stack_rate` run aborts with the same exception. -/
theorem C1_counterexample :
    stack_rate_by_pixel 0 0 (fun _ _ _ => true) 3 (fun _ _ _ => 1) 1 (fun _ => 1)
        (fun _ _ => 0) 1 = .error .notPosDef ∧
      stack_rate 1 1 1 (fun _ _ _ => some 1) (fun _ => 1) (fun _ _ => 0) none
        ⟨0, 3, 5, 1⟩ = .error .notPosDef := by
  have hind : indexSet (fun _ _ _ => true) 1 0 0 = [0] := by
    simp [indexSet, List.range_succ]
  have hs : stackStep 3 (fun _ : ℕ => (1 : ℚ)) (fun _ => 1) (fun _ _ => 0) [0]
      = .fail .notPosDef := by
    unfold stackStep
    simp [vcmSub, posDefPivots]
  constructor
  · simp only [stack_rate_by_pixel_def, hind]
    exact stackLoop_fail (by norm_num) hs
  · have hind' : indexSet
        (defaultMst fun k r c => zeroFill ((fun _ _ _ => some (1 : ℚ)) k r c)) 1 0 0
        = [0] := by
      simp [indexSet, List.range_succ, defaultMst, isnanQ]
    have hpix : stack_rate_by_pixel 0 0
        (defaultMst fun k r c => zeroFill ((fun _ _ _ => some (1 : ℚ)) k r c)) 3
        (fun k r c => zeroFill ((fun _ _ _ => some (1 : ℚ)) k r c)) 1 (fun _ => 1)
        (fun _ _ => 0) 1 = .error .notPosDef := by
      simp only [stack_rate_by_pixel_def, hind']
      simp only [zeroFill, Option.getD]
      exact stackLoop_fail (by norm_num) hs
    unfold stack_rate
    simp [gridSerial, seqE, List.range_succ, Except.map, hpix]

/-- C1, amended: for every pixel whose active set meets `pthresh` but whose
VCM submatrix fails the Cholesky positivity test, the per-pixel estimator
does not convert the failure into a `(NaN, NaN, count)` result: the
exception propagates out of `_stack_rate_by_pixel` as an error (the claim's
"caught inside the per-pixel estimator" is false; nothing in stack.py
catches `LinAlgError`). -/
theorem C1_amended_propagates (row col : ℕ) (mst : ℕ → ℕ → ℕ → Bool) (nsig : ℚ)
    (obs : ℕ → ℕ → ℕ → ℚ) (pthresh : ℕ) (span : ℕ → ℚ) (vcmt : ℕ → ℕ → ℚ) (nObs : ℕ)
    (hth : pthresh ≤ (indexSet mst nObs row col).length)
    (hpd : posDefPivots (vcmSub vcmt (indexSet mst nObs row col)) = false) :
    stack_rate_by_pixel row col mst nsig obs pthresh span vcmt nObs
      = .error .notPosDef := by
  have hne : indexSet mst nObs row col ≠ [] := by
    intro h
    rw [h] at hpd
    simp [vcmSub, posDefPivots] at hpd
  have hstep : stackStep nsig (fun k => obs k row col) span vcmt
      (indexSet mst nObs row col) = .fail .notPosDef := by
    unfold stackStep
    rw [if_neg (by simp [List.isEmpty_iff, hne])]
    dsimp only
    rw [if_neg (by simp [hpd])]
  simp only [stack_rate_by_pixel_def]
  exact stackLoop_fail (by omega) hstep

/-- C1, witness for the amended theorem: a 1-observation pixel with VCM
entry −1 and `pthresh = 1`. -/
theorem C1_amended_propagates_witness :
    (1 ≤ (indexSet (fun _ _ _ => true) 1 0 0).length ∧
      posDefPivots (vcmSub (fun _ _ => -1) (indexSet (fun _ _ _ => true) 1 0 0)) = false) ∧
    stack_rate_by_pixel 0 0 (fun _ _ _ => true) 2 (fun _ _ _ => 5) 1 (fun _ => 1)
      (fun _ _ => -1) 1 = .error .notPosDef := by
  have h1 : 1 ≤ (indexSet (fun _ _ _ => true) 1 0 0).length := by
    simp [indexSet, List.range_succ]
  have h2 : posDefPivots (vcmSub (fun _ _ => (-1 : ℚ))
      (indexSet (fun _ _ _ => true) 1 0 0)) = false := by
    simp [indexSet, List.range_succ, vcmSub, posDefPivots]
  exact ⟨⟨h1, h2⟩, C1_amended_propagates 0 0 _ 2 _ 1 _ _ 1 h1 h2⟩

/-- C5: for every pixel whose initial independent-observation count is below
`pthresh`, `_stack_rate_by_pixel` returns `(NaN, NaN, |ind|)` immediately —
and it does so for EVERY VCM, without ever producing a numerical error, so
no decomposition is attempted (the `while` body, which contains the only
`cholesky`/`qr` calls, is never entered). -/
theorem C5_insufficient_samples (row col : ℕ) (mst : ℕ → ℕ → ℕ → Bool) (nsig : ℚ)
    (obs : ℕ → ℕ → ℕ → ℚ) (pthresh : ℕ) (span : ℕ → ℚ) (nObs : ℕ)
    (hlt : (indexSet mst nObs row col).length < pthresh) :
    ∀ vcmt : ℕ → ℕ → ℚ,
      stack_rate_by_pixel row col mst nsig obs pthresh span vcmt nObs
        = .ok ⟨none, none, (indexSet mst nObs row col).length⟩ := by
  intro vcmt
  simp only [stack_rate_by_pixel_def]
  exact stackLoop_exit hlt

/-- C5, witness: a pixel with one selected observation and `pthresh = 2`,
evaluated at a singular (all-zero) VCM. -/
theorem C5_insufficient_samples_witness :
    ((indexSet (fun k _ _ => k == 0) 2 0 0).length < 2) ∧
    stack_rate_by_pixel 0 0 (fun k _ _ => k == 0) 3 (fun _ _ _ => 4) 2 (fun _ => 1)
      (fun _ _ => 0) 2 = .ok ⟨none, none, (indexSet (fun k _ _ => k == 0) 2 0 0).length⟩ := by
  have h1 : (indexSet (fun k _ _ => k == 0) 2 0 0).length < 2 := by
    simp [indexSet, List.range_succ]
  exact ⟨h1, C5_insufficient_samples 0 0 _ 3 _ 2 _ 2 h1 _⟩

/-- C9, counterexample: a pixel whose observations are ALL NaN, under the
DEFAULTED mask.  The claim says the mask column is all false and the output
is `(NaN, NaN, 0)`; in the code, however, the default `mst = ~isnan(obs)` is
computed from the already zero-filled cube (line 102 precedes line 106), so
the column is all TRUE and the pixel is estimated from all-zero
observations: the output is `(0, 1, 1)` — rate 0, error √1, one sample —
not `(NaN, NaN, 0)`. -/
theorem C9_counterexample :
    stack_rate 1 1 1 (fun _ _ _ => none) (fun _ => 1)
        (fun i j => if i = j then 1 else 0) none ⟨0, 3, 5, 1⟩
      = .ok ([[some 0]], [[some 1]], [[1]]) := by
  have hind : indexSet
      (defaultMst fun k r c => zeroFill ((fun _ _ _ => (none : Option ℚ)) k r c)) 1 0 0
      = [0] := by
    simp [indexSet, List.range_succ, defaultMst, isnanQ]
  have hs : stackStep 3 (fun _ : ℕ => (0 : ℚ)) (fun _ => 1)
      (fun i j => if i = j then 1 else 0) [0] = .done ⟨some 0, some 1, 1⟩ := by
    unfold stackStep
    norm_num [vcmSub, posDefPivots, schurComp, matInv, detQ, minorMat, obsVec,
      designRow, dotQ, matVec, residuals, whitenSq, maxQ, argmaxIdx, ltSqrt,
      sWeight, vEst, wrSqOf, List.range_succ]
  have hpix : stack_rate_by_pixel 0 0
      (defaultMst fun k r c => zeroFill ((fun _ _ _ => (none : Option ℚ)) k r c)) 3
      (fun k r c => zeroFill ((fun _ _ _ => (none : Option ℚ)) k r c)) 1 (fun _ => 1)
      (fun i j => if i = j then 1 else 0) 1 = .ok ⟨some 0, some 1, 1⟩ := by
    simp only [stack_rate_by_pixel_def, hind]
    simp only [zeroFill, Option.getD]
    exact stackLoop_done (by norm_num) hs
  unfold stack_rate
  simp [gridSerial, seqE, List.range_succ, Except.map, hpix, splitGrid,
    applyMaxsigMask, maskEntry, errGtMaxsig, ltSqrt]
  norm_num

/-- C9, amended: the `(NaN, NaN, 0)` behaviour holds for a SUPPLIED mask
whose column at the pixel is all false (as an all-NaN pixel's column is
after upstream NaN propagation), given `pthresh ≥ 1`; the defaulted mask,
by contrast, is derived from the zero-filled cube and is all-true
(see the counterexample).  Moreover every pixel's result depends only on
its own mask and observation columns, so the all-NaN pixel leaves all other
pixels unaffected. -/
theorem C9_amended (row col : ℕ) (mst : ℕ → ℕ → ℕ → Bool) (nsig : ℚ)
    (obs : ℕ → ℕ → ℕ → ℚ) (pthresh : ℕ) (span : ℕ → ℚ) (vcmt : ℕ → ℕ → ℚ) (nObs : ℕ)
    (hpth : 1 ≤ pthresh) (hmask : ∀ k, mst k row col = false) :
    stack_rate_by_pixel row col mst nsig obs pthresh span vcmt nObs
        = .ok ⟨none, none, 0⟩ ∧
      ∀ (row' col' : ℕ) (mst' : ℕ → ℕ → ℕ → Bool) (obs' : ℕ → ℕ → ℕ → ℚ),
        (∀ k, mst' k row' col' = mst k row' col') →
        (∀ k, obs' k row' col' = obs k row' col') →
        stack_rate_by_pixel row' col' mst' nsig obs' pthresh span vcmt nObs
          = stack_rate_by_pixel row' col' mst nsig obs pthresh span vcmt nObs := by
  constructor
  · have hind : indexSet mst nObs row col = [] := by
      simp [indexSet, hmask]
    simp only [stack_rate_by_pixel_def, hind]
    exact stackLoop_exit (by simp; omega)
  · intro row' col' mst' obs' hm ho
    have h1 : indexSet mst' nObs row' col' = indexSet mst nObs row' col' := by
      simp only [indexSet]
      exact List.filter_congr (fun k _ => by rw [hm])
    have h2 : (fun k => obs' k row' col') = (fun k => obs k row' col') := funext ho
    simp only [stack_rate_by_pixel_def, h1, h2]

/-- C9, witness for the amended theorem: a 1-observation pixel with an
all-false supplied mask column, `pthresh = 1`. -/
theorem C9_amended_witness :
    (∀ k : ℕ, (fun _ _ _ => false) k 0 0 = false) ∧
    stack_rate_by_pixel 0 0 (fun _ _ _ => false) 3 (fun _ _ _ => 7) 1 (fun _ => 1)
      (fun _ _ => 1) 1 = .ok ⟨none, none, 0⟩ :=
  ⟨fun _ => rfl,
    (C9_amended 0 0 _ 3 _ 1 _ _ 1 (by norm_num) (fun _ => rfl)).1⟩

/-- C7: the only operation `stack_rate` (via `_stack_setup`) performs on a
supplied independent-observation mask is `mst[isnan(obs)] = 0`, and because
`obs` is the already zero-filled cube, `isnan(obs)` is everywhere false:
the update is the identity, so the caller's mask is left unmodified by the
core. -/
theorem C7_mask_unmodified (obs : ℕ → ℕ → ℕ → ℚ) (mst : ℕ → ℕ → ℕ → Bool) :
    mstUpdate obs mst = mst := by
  funext k r c
  simp [mstUpdate, isnanQ]

/-- C6: the final masking step leaves the `sample_count` raster entirely
unchanged, and transforms each pixel by exactly the rule "if the error is
not NaN and exceeds `max_sigma` (strictly), rate and error become NaN;
otherwise the pixel is unchanged". -/
theorem C6_masking (maxsig : ℚ) (g : Grid) :
    (applyMaxsigMask maxsig g).map (List.map PixelResult.nsamp)
        = g.map (List.map PixelResult.nsamp) ∧
      ∀ res : PixelResult,
        (errGtMaxsig maxsig res.err = true ↔
          ∃ sq, res.err = some sq ∧ ltSqrt maxsig sq) ∧
        (errGtMaxsig maxsig res.err = true →
          maskEntry maxsig res = ⟨none, none, res.nsamp⟩) ∧
        (errGtMaxsig maxsig res.err = false → maskEntry maxsig res = res) := by
  refine ⟨?_, ?_⟩
  · have h : ∀ res : PixelResult, (maskEntry maxsig res).nsamp = res.nsamp := by
      intro res
      unfold maskEntry
      split <;> rfl
    simp [applyMaxsigMask, List.map_map, Function.comp, h]
  · intro res
    refine ⟨?_, fun ht => ?_, fun hf => ?_⟩
    · cases he : res.err with
      | none => simp [errGtMaxsig, he]
      | some sq => simp [errGtMaxsig, he]
    · unfold maskEntry
      rw [if_pos ht]
    · unfold maskEntry
      rw [if_neg (by simp [hf])]

/-- C6, witness: a pixel with error √9 = 3 above `max_sigma = 2` keeps its
sample count through the masking step. -/
theorem C6_masking_witness :
    (applyMaxsigMask 2 [[⟨some 1, some 9, 5⟩]]).map (List.map PixelResult.nsamp)
      = [[(⟨some 1, some 9, 5⟩ : PixelResult)]].map (List.map PixelResult.nsamp) :=
  (C6_masking 2 [[⟨some 1, some 9, 5⟩]]).1

/-- C2, counterexample: on an EMPTY raster (here 0 rows × 1 column) the
three modes do not produce identical results.  The serial nested loops run
zero iterations and return empty rasters, but in the parallel modes the
collected joblib result list is empty, `np.array(res)` is a 1-D empty
array, and the reassembly `res[:, :, 0]` (row mode, line 58) respectively
`res[:, 0]` (pixel mode, line 67) raises `IndexError`, aborting the run:
row-parallel output ≠ serial output. -/
theorem C2_counterexample :
    stack_rate 0 1 1 (fun _ _ _ => some 1) (fun _ => 1) (fun _ _ => 1) none
        ⟨1, 3, 5, 1⟩ = .error .indexError ∧
      stack_rate 0 1 1 (fun _ _ _ => some 1) (fun _ => 1) (fun _ _ => 1) none
        ⟨2, 3, 5, 1⟩ = .error .indexError ∧
      stack_rate 0 1 1 (fun _ _ _ => some 1) (fun _ => 1) (fun _ _ => 1) none
        ⟨0, 3, 5, 1⟩ = .ok ([], [], []) ∧
      stack_rate 0 1 1 (fun _ _ _ => some 1) (fun _ => 1) (fun _ _ => 1) none
          ⟨1, 3, 5, 1⟩
        ≠ stack_rate 0 1 1 (fun _ _ _ => some 1) (fun _ => 1) (fun _ _ => 1) none
          ⟨0, 3, 5, 1⟩ := by
  have h1 : stack_rate 0 1 1 (fun _ _ _ => some (1 : ℚ)) (fun _ => 1) (fun _ _ => 1)
      none ⟨1, 3, 5, 1⟩ = .error .indexError := by
    unfold stack_rate
    simp [gridByRows, seqE, List.range_zero, Except.map]
  have h2 : stack_rate 0 1 1 (fun _ _ _ => some (1 : ℚ)) (fun _ => 1) (fun _ _ => 1)
      none ⟨2, 3, 5, 1⟩ = .error .indexError := by
    unfold stack_rate
    simp [gridByPixel, productRC, seqE, List.range_zero, Except.map]
  have h3 : stack_rate 0 1 1 (fun _ _ _ => some (1 : ℚ)) (fun _ => 1) (fun _ _ => 1)
      none ⟨0, 3, 5, 1⟩ = .ok ([], [], []) := by
    unfold stack_rate
    simp [gridSerial, seqE, List.range_zero, Except.map, splitGrid, applyMaxsigMask]
  refine ⟨h1, h2, h3, ?_⟩
  rw [h1, h3]
  simp

/-- C2, amended: on every NONEMPTY raster (`rows ≥ 1` and `cols ≥ 1`) the
three concurrency modes of `stack_rate` — serial (`parallel` neither 1 nor
2), row-parallel (`parallel == 1`) and pixel-parallel (`parallel == 2`) —
produce identical rate, error and sample-count rasters: with the remaining
parameters fixed, the result does not depend on the `parallel` flag at all.
On an empty raster the serial mode returns empty rasters while both
parallel modes abort with the reassembly `IndexError` (see the
counterexample). -/
theorem C2_modes_identical (rows cols nObs : ℕ) (phase : ℕ → ℕ → ℕ → Option ℚ)
    (span : ℕ → ℚ) (vcmt : ℕ → ℕ → ℚ) (mstOpt : Option (ℕ → ℕ → ℕ → Bool))
    (par₁ par₂ : ℤ) (nsig maxsig : ℚ) (pthresh : ℕ)
    (hrows : 1 ≤ rows) (hcols : 1 ≤ cols) :
    stack_rate rows cols nObs phase span vcmt mstOpt ⟨par₁, nsig, maxsig, pthresh⟩
      = stack_rate rows cols nObs phase span vcmt mstOpt ⟨par₂, nsig, maxsig, pthresh⟩ := by
  have hgrid : ∀ (pix : ℕ → ℕ → Except NumErr PixelResult) (par : ℤ),
      (if par = 1 then gridByRows rows cols pix
        else if par = 2 then gridByPixel rows cols pix
        else gridSerial rows cols pix) = gridSerial rows cols pix := by
    intro pix par
    split
    · exact gridByRows_eq_serial rows cols pix (by omega)
    · split
      · exact gridByPixel_eq_serial rows cols pix (by omega) (by omega)
      · rfl
  unfold stack_rate
  simp only [hgrid]

/-- C2, witness for the amended theorem: a 1×1 raster, row-parallel versus
serial. -/
theorem C2_modes_identical_witness :
    ((1 : ℕ) ≤ 1 ∧ (1 : ℕ) ≤ 1) ∧
      stack_rate 1 1 1 (fun _ _ _ => some 2) (fun _ => 1) (fun _ _ => 1) none
          ⟨1, 3, 5, 1⟩
        = stack_rate 1 1 1 (fun _ _ _ => some 2) (fun _ => 1) (fun _ _ => 1) none
          ⟨0, 3, 5, 1⟩ :=
  ⟨⟨le_refl 1, le_refl 1⟩,
    C2_modes_identical 1 1 1 (fun _ _ _ => some 2) (fun _ => 1) (fun _ _ => 1) none
      1 0 3 5 1 (le_refl 1) (le_refl 1)⟩

/-- The first index attaining the maximum attains it, and every earlier
entry is strictly below it (also true, degenerately, of the empty list,
where both sides are 0). -/
theorem argmax_first_max (l : List ℚ) :
    l.getD (argmaxIdx l) 0 = maxQ l ∧ ∀ k < argmaxIdx l, l.getD k 0 < maxQ l := by
  by_cases h : l = []
  · subst h
    exact ⟨rfl, by intro k hk; simp [argmaxIdx, List.findIdx_nil] at hk⟩
  · exact ⟨argmaxIdx_attains l h, fun k hk => argmaxIdx_first l k hk⟩

/-- Characterization of a loop-body execution whose numerical phase
succeeds: the body rejects the argmax of the whitened residual squares when
the maximum whitened residual exceeds `nsig`, and otherwise converges with
`(v[0], err[0], len(ind))`. -/
theorem stackStep_eq_of (nsig : ℚ) (y span : ℕ → ℚ) (vcmt : ℕ → ℕ → ℚ)
    (ind : List ℕ) (vcm_inv : Mat)
    (hne : ind ≠ [])
    (hpd : posDefPivots (vcmSub vcmt ind) = true)
    (hinv : matInv (vcmSub vcmt ind) = some vcm_inv)
    (hs0 : sWeight vcm_inv (designRow span ind) ≠ 0) :
    stackStep nsig y span vcmt ind =
      if ltSqrt nsig (maxQ (wrSqOf vcm_inv (designRow span ind) (obsVec y ind)))
      then .reject (argmaxIdx (wrSqOf vcm_inv (designRow span ind) (obsVec y ind)))
      else .done ⟨some (vEst vcm_inv (designRow span ind) (obsVec y ind)),
            some (1 / sWeight vcm_inv (designRow span ind)), ind.length⟩ := by
  unfold stackStep
  rw [if_neg (by simp [List.isEmpty_iff, hne])]
  dsimp only
  rw [if_pos hpd, hinv]
  dsimp only
  rw [if_neg hs0]

/-- C3: one iteration of the per-pixel rejection loop, on an active set that
meets `pthresh` and whose numerical phase succeeds.  If the maximum whitened
residual exceeds `nsig`, exactly the first-occurring argmax observation is
removed (its residual square attains the maximum and every earlier one is
strictly smaller) and the loop repeats on the shrunken set; if the shrunken
set then falls below `pthresh`, the loop returns `(NaN, NaN, d)` with `d`
the initial count passed by `_stack_rate_by_pixel`.  Otherwise the loop
converges, returning `(v[0], err[0], len(ind))` with the current active-set
size. -/
theorem C3_rejection_iteration (nsig : ℚ) (y span : ℕ → ℚ) (vcmt : ℕ → ℕ → ℚ)
    (pthresh d : ℕ) (ind : List ℕ) (vcm_inv : Mat)
    (hth : pthresh ≤ ind.length) (hne : ind ≠ [])
    (hpd : posDefPivots (vcmSub vcmt ind) = true)
    (hinv : matInv (vcmSub vcmt ind) = some vcm_inv)
    (hs0 : sWeight vcm_inv (designRow span ind) ≠ 0) :
    (ltSqrt nsig (maxQ (wrSqOf vcm_inv (designRow span ind) (obsVec y ind))) →
      (wrSqOf vcm_inv (designRow span ind) (obsVec y ind)).getD
          (argmaxIdx (wrSqOf vcm_inv (designRow span ind) (obsVec y ind))) 0
        = maxQ (wrSqOf vcm_inv (designRow span ind) (obsVec y ind)) ∧
      (∀ k < argmaxIdx (wrSqOf vcm_inv (designRow span ind) (obsVec y ind)),
        (wrSqOf vcm_inv (designRow span ind) (obsVec y ind)).getD k 0
          < maxQ (wrSqOf vcm_inv (designRow span ind) (obsVec y ind))) ∧
      stackLoop nsig y span vcmt pthresh d ind
        = stackLoop nsig y span vcmt pthresh d
            (ind.eraseIdx (argmaxIdx (wrSqOf vcm_inv (designRow span ind) (obsVec y ind)))) ∧
      ((ind.eraseIdx
            (argmaxIdx (wrSqOf vcm_inv (designRow span ind) (obsVec y ind)))).length
          < pthresh →
        stackLoop nsig y span vcmt pthresh d ind = .ok ⟨none, none, d⟩)) ∧
    (¬ ltSqrt nsig (maxQ (wrSqOf vcm_inv (designRow span ind) (obsVec y ind))) →
      stackLoop nsig y span vcmt pthresh d ind
        = .ok ⟨some (vEst vcm_inv (designRow span ind) (obsVec y ind)),
            some (1 / sWeight vcm_inv (designRow span ind)), ind.length⟩) := by
  constructor
  · intro hlt
    have hstep : stackStep nsig y span vcmt ind
        = .reject (argmaxIdx (wrSqOf vcm_inv (designRow span ind) (obsVec y ind))) := by
      rw [stackStep_eq_of nsig y span vcmt ind vcm_inv hne hpd hinv hs0, if_pos hlt]
    have hmax := argmax_first_max (wrSqOf vcm_inv (designRow span ind) (obsVec y ind))
    refine ⟨hmax.1, hmax.2, stackLoop_reject (by omega) hstep, fun hbelow => ?_⟩
    rw [stackLoop_reject (by omega) hstep, stackLoop_exit hbelow]
  · intro hnlt
    have hstep : stackStep nsig y span vcmt ind
        = .done ⟨some (vEst vcm_inv (designRow span ind) (obsVec y ind)),
            some (1 / sWeight vcm_inv (designRow span ind)), ind.length⟩ := by
      rw [stackStep_eq_of nsig y span vcmt ind vcm_inv hne hpd hinv hs0, if_neg hnlt]
    exact stackLoop_done (by omega) hstep

/-- C3, witness: one observation of value 10, unit VCM, `nsig = 3`: the
whitened residual is 0, the loop converges with rate 10, error √1 and one
sample. -/
theorem C3_rejection_iteration_witness :
    (¬ ltSqrt 3 (maxQ (wrSqOf [[1]] (designRow (fun _ => 1) [1])
        (obsVec (fun k => if k = 0 then 0 else 10) [1])))) ∧
    stackLoop 3 (fun k => if k = 0 then 0 else 10) (fun _ => 1)
        (fun i j => if i = j then 1 else 0) 1 2 [1]
      = .ok ⟨some (vEst [[1]] (designRow (fun _ => 1) [1])
            (obsVec (fun k => if k = 0 then 0 else 10) [1])),
          some (1 / sWeight [[1]] (designRow (fun _ => 1) [1])), [1].length⟩ := by
  have hnlt : ¬ ltSqrt 3 (maxQ (wrSqOf [[1]] (designRow (fun _ => 1) [1])
      (obsVec (fun k => if k = 0 then 0 else 10) [1]))) := by
    norm_num [wrSqOf, whitenSq, residuals, vEst, sWeight, dotQ, matVec, designRow,
      obsVec, schurComp, maxQ, ltSqrt]
  refine ⟨hnlt, (C3_rejection_iteration 3 (fun k => if k = 0 then 0 else 10)
    (fun _ => 1) (fun i j => if i = j then 1 else 0) 1 2 [1] [[1]]
    (by norm_num) (by simp) ?_ ?_ ?_).2 hnlt⟩
  · norm_num [vcmSub, posDefPivots, schurComp]
  · norm_num [vcmSub, matInv, detQ, minorMat, List.range_succ]
  · norm_num [sWeight, dotQ, matVec, designRow]

/-- The rejection loop, started with enough fuel for
`len(ind) − pthresh + 1` body executions, never exhausts it: the fuelled
loop agrees with the unfuelled one. -/
theorem stackLoopFuel_sufficient (nsig : ℚ) (y span : ℕ → ℚ) (vcmt : ℕ → ℕ → ℚ)
    (pthresh d : ℕ) :
    ∀ (fuel : ℕ) (ind : List ℕ), ind.length + 1 ≤ fuel + pthresh →
      stackLoopFuel nsig y span vcmt pthresh d fuel ind
        = some (stackLoop nsig y span vcmt pthresh d ind) := by
  intro fuel
  induction fuel with
  | zero =>
    intro ind hb
    have hc : ind.length < pthresh := by omega
    rw [stackLoop_exit hc]
    unfold stackLoopFuel
    rw [if_pos hc]
  | succ f ih =>
    intro ind hb
    by_cases hc : ind.length < pthresh
    · rw [stackLoop_exit hc]
      unfold stackLoopFuel
      rw [if_pos hc]
    · unfold stackLoopFuel
      rw [if_neg hc]
      cases hs : stackStep nsig y span vcmt ind with
      | fail e => rw [stackLoop_fail hc hs]
      | done res => rw [stackLoop_done hc hs]
      | reject j =>
        rw [stackLoop_reject hc hs]
        have hj := stackStep_reject_lt hs
        have hlen : (ind.eraseIdx j).length = ind.length - 1 := by
          rw [List.length_eraseIdx]
          simp [hj]
        exact ih (ind.eraseIdx j) (by omega)

/-- C4: every rejecting iteration of the per-pixel loop removes exactly one
element of the active index set (the length strictly decreases by one), and
consequently the loop needs at most `initial_count − pthresh + 1` body
executions: with exactly that much fuel the instrumented loop already
produces the loop's result (given `pthresh ≥ 1`). -/
theorem C4_termination (nsig : ℚ) (y span : ℕ → ℚ) (vcmt : ℕ → ℕ → ℚ)
    (pthresh d : ℕ) (ind₀ : List ℕ) (hp : 1 ≤ pthresh) :
    (∀ (ind : List ℕ) (j : ℕ), stackStep nsig y span vcmt ind = .reject j →
        (ind.eraseIdx j).length + 1 = ind.length) ∧
      stackLoopFuel nsig y span vcmt pthresh d (ind₀.length - pthresh + 1) ind₀
        = some (stackLoop nsig y span vcmt pthresh d ind₀) := by
  refine ⟨fun ind j hs => ?_, ?_⟩
  · have hj := stackStep_reject_lt hs
    rw [List.length_eraseIdx]
    simp only [hj, if_true]
    omega
  · exact stackLoopFuel_sufficient nsig y span vcmt pthresh d _ ind₀ (by omega)

/-- C4, witness: one observation, `pthresh = 1`; two units of fuel
(`1 − 1 + 1 = 1` rejection budget plus the convergence check) reproduce the
loop's result. -/
theorem C4_termination_witness :
    (1 : ℕ) ≤ 1 ∧
      stackLoopFuel 3 (fun _ => 0) (fun _ => 1) (fun _ _ => 1) 1 1
          ([0].length - 1 + 1) [0]
        = some (stackLoop 3 (fun _ => 0) (fun _ => 1) (fun _ _ => 1) 1 1 [0]) :=
  ⟨le_refl 1,
    (C4_termination 3 (fun _ => 0) (fun _ => 1) (fun _ _ => 1) 1 1 [0] (le_refl 1)).2⟩

/-- A converged loop body returns the current active-set size and non-NaN
rate and error. -/
theorem stackStep_done_inv {nsig : ℚ} {y span : ℕ → ℚ} {vcmt : ℕ → ℕ → ℚ}
    {ind : List ℕ} {res : PixelResult}
    (h : stackStep nsig y span vcmt ind = .done res) :
    res.nsamp = ind.length ∧ res.rate ≠ none ∧ res.err ≠ none := by
  unfold stackStep at h
  split at h
  · cases h
  · dsimp only at h
    split at h
    · split at h
      · cases h
      · split at h
        · cases h
        · split at h
          · cases h
          · injection h with h'
            subst h'
            exact ⟨rfl, by simp, by simp⟩
    · cases h

/-- Invariant of the rejection loop: an `ok` result either comes from the
insufficient-samples exit (NaN rate and error, sample count = the
`default_no_samples` argument) or from a converged body on some subset of
the starting active set whose size meets `pthresh`. -/
theorem stackLoop_ok_inv (nsig : ℚ) (y span : ℕ → ℚ) (vcmt : ℕ → ℕ → ℚ)
    (pthresh d : ℕ) (ind : List ℕ) (res : PixelResult)
    (h : stackLoop nsig y span vcmt pthresh d ind = .ok res) :
    (res.rate = none → res.err = none ∧ res.nsamp = d) ∧
      (res.rate ≠ none → pthresh ≤ res.nsamp ∧
        ∃ ind', ind'.Sublist ind ∧ res.nsamp = ind'.length ∧
          stackStep nsig y span vcmt ind' = .done res) := by
  by_cases hc : ind.length < pthresh
  · rw [stackLoop_exit hc] at h
    injection h with h'
    subst h'
    exact ⟨fun _ => ⟨rfl, rfl⟩, fun hr => absurd rfl hr⟩
  · cases hs : stackStep nsig y span vcmt ind with
    | fail e => rw [stackLoop_fail hc hs] at h; cases h
    | done r =>
      rw [stackLoop_done hc hs] at h
      injection h with h'
      subst h'
      have hd := stackStep_done_inv hs
      have hn := hd.1
      exact ⟨fun hr => absurd hr hd.2.1,
        fun _ => ⟨by omega, ind, List.Sublist.refl ind, hn, hs⟩⟩
    | reject j =>
      rw [stackLoop_reject hc hs] at h
      have ih := stackLoop_ok_inv nsig y span vcmt pthresh d (ind.eraseIdx j) res h
      refine ⟨ih.1, fun hr => ?_⟩
      obtain ⟨hth, ind', hsub, hlen, hdone⟩ := ih.2 hr
      exact ⟨hth, ind', hsub.trans (List.eraseIdx_sublist ind j), hlen, hdone⟩
termination_by ind.length
decreasing_by
  have hj := stackStep_reject_lt hs
  rw [List.length_eraseIdx]
  simp only [hj, if_true]
  omega

/-- C10: every `ok` result triple of `_stack_rate_by_pixel` has a sample
count at most `n_obs`; a NaN-rate result (insufficient samples or
non-convergence) also has NaN error and carries the pixel's initial
independent-observation count; a converged result has at least `pthresh`
samples, equal to the size of a final active set that is a subset
(sublist) of the initial index set. -/
theorem C10_result_invariants (row col : ℕ) (mst : ℕ → ℕ → ℕ → Bool) (nsig : ℚ)
    (obs : ℕ → ℕ → ℕ → ℚ) (pthresh : ℕ) (span : ℕ → ℚ) (vcmt : ℕ → ℕ → ℚ)
    (nObs : ℕ) (res : PixelResult)
    (h : stack_rate_by_pixel row col mst nsig obs pthresh span vcmt nObs = .ok res) :
    res.nsamp ≤ nObs ∧
      (res.rate = none → res.err = none ∧
        res.nsamp = (indexSet mst nObs row col).length) ∧
      (res.rate ≠ none → pthresh ≤ res.nsamp ∧
        ∃ ind', ind'.Sublist (indexSet mst nObs row col) ∧ res.nsamp = ind'.length ∧
          stackStep nsig (fun k => obs k row col) span vcmt ind' = .done res) := by
  rw [stack_rate_by_pixel_def] at h
  have hi := stackLoop_ok_inv _ _ _ _ _ _ _ _ h
  have hlen : (indexSet mst nObs row col).length ≤ nObs := by
    have := List.length_filter_le (fun k => mst k row col) (List.range nObs)
    simpa [indexSet] using this
  refine ⟨?_, hi.1, hi.2⟩
  by_cases hr : res.rate = none
  · have := (hi.1 hr).2
    omega
  · obtain ⟨_, ind', hsub, hle, _⟩ := hi.2 hr
    have := hsub.length_le
    omega

/-- C10, witness: a converged one-observation pixel with rate 10, error √1
and one sample; its sample count is bounded by `n_obs = 1`. -/
theorem C10_result_invariants_witness :
    stack_rate_by_pixel 0 0 (fun _ _ _ => true) 3 (fun _ _ _ => 10) 1 (fun _ => 1)
        (fun _ _ => 1) 1 = .ok ⟨some 10, some 1, 1⟩ ∧
      (⟨some 10, some 1, 1⟩ : PixelResult).nsamp ≤ 1 := by
  have hind : indexSet (fun _ _ _ => true) 1 0 0 = [0] := by
    simp [indexSet, List.range_succ]
  have hs : stackStep 3 (fun _ : ℕ => (10 : ℚ)) (fun _ => 1) (fun _ _ => 1) [0]
      = .done ⟨some 10, some 1, 1⟩ := by
    unfold stackStep
    norm_num [vcmSub, posDefPivots, schurComp, matInv, detQ, minorMat, obsVec,
      designRow, dotQ, matVec, residuals, whitenSq, maxQ, argmaxIdx, ltSqrt,
      sWeight, vEst, wrSqOf, List.range_succ]
  have h : stack_rate_by_pixel 0 0 (fun _ _ _ => true) 3 (fun _ _ _ => 10) 1
      (fun _ => 1) (fun _ _ => 1) 1 = .ok ⟨some 10, some 1, 1⟩ := by
    simp only [stack_rate_by_pixel_def, hind]
    exact stackLoop_done (by norm_num) hs
  exact ⟨h, (C10_result_invariants 0 0 _ 3 _ 1 _ _ 1 _ h).1⟩

/-- C8: in the distributed merge of `mpi_mst_calc`, every non-coordinating
worker performs exactly one send, addressed to the coordinator and tagged
with its own rank; the coordinator's receives are from sources `1, …, N−1`
in exactly that order; every rank's event sequence begins with the barrier,
which therefore precedes the whole collection; and — under the
spec-modelled tile exclusivity of the worker payloads — the accumulated
(`+=`) merge places each worker's result at its own tile region: at every
pixel the merged raster equals the owning worker's value. -/
theorem C8_distributed_merge (N : ℕ) (owner : ℕ → ℕ) (payload : ℕ → ℕ → ℚ)
    (hex : Mpi.tileExclusive N owner payload) :
    (∀ rank, rank ≠ Mpi.MASTER_PROCESS →
        Mpi.sendsOf (Mpi.events N rank) = [.send Mpi.MASTER_PROCESS rank]) ∧
      Mpi.recvSources (Mpi.events N Mpi.MASTER_PROCESS)
        = List.range' 1 (N - 1) ∧
      (∀ rank, (Mpi.events N rank).head? = some .barrier) ∧
      (∀ p, owner p < N → Mpi.mergeResult N payload p = payload (owner p) p) := by
  refine ⟨?_, ?_, ?_, ?_⟩
  · intro rank hr
    simp [Mpi.events, Mpi.sendsOf, hr, List.filter]
  · simp only [Mpi.events, Mpi.MASTER_PROCESS, if_pos rfl]
    exact Mpi.recvSources_barrier_map _
  · intro rank
    by_cases hr : rank = Mpi.MASTER_PROCESS <;> simp [Mpi.events, hr]
  · intro p hp
    unfold Mpi.mergeResult
    by_cases h0 : owner p = 0
    · have hz : ∀ q ∈ (List.range' 1 (N - 1)).map (fun i => payload i p), q = 0 := by
        intro q hq
        rcases List.mem_map.1 hq with ⟨i, hi, rfl⟩
        have hmem := List.mem_range'_1.1 hi
        exact hex i p (by omega) (by omega)
      rw [List.sum_eq_zero hz, h0]
      simp [Mpi.MASTER_PROCESS]
    · have hj1 : 1 ≤ owner p := Nat.one_le_iff_ne_zero.2 h0
      have hmem : owner p ∈ List.range' 1 (N - 1) := by
        rw [List.mem_range'_1]
        omega
      have h0pay : payload Mpi.MASTER_PROCESS p = 0 := by
        refine hex 0 p (by omega) ?_
        simpa [Mpi.MASTER_PROCESS] using h0
      rw [Mpi.sum_map_eq_single (List.range' 1 (N - 1)) (fun i => payload i p)
        (owner p) hmem (List.nodup_range' 1 (N - 1)) (fun i hi hne => ?_), h0pay]
      · ring
      · have hmem' := List.mem_range'_1.1 hi
        exact hex i p (by omega) (Ne.symm hne)

/-- C8, witness: two ranks, pixels owned by parity; the merged value at
pixel 3 is worker 1's payload. -/
theorem C8_distributed_merge_witness :
    Mpi.tileExclusive 2 (fun p => p % 2)
        (fun i p => if i = p % 2 then (p : ℚ) + 1 else 0) ∧
      Mpi.mergeResult 2 (fun i p => if i = p % 2 then (p : ℚ) + 1 else 0) 3 = 4 := by
  have hex : Mpi.tileExclusive 2 (fun p => p % 2)
      (fun i p => if i = p % 2 then (p : ℚ) + 1 else 0) := by
    intro i p _ ho
    exact if_neg (fun he => ho he.symm)
  refine ⟨hex, ?_⟩
  have h := (C8_distributed_merge 2 _ _ hex).2.2.2 3 (by norm_num)
  norm_num at h
  exact h

end PyRate
